import Mathlib

/-!
Shallow embedding of the core of the mcp-document-server repository
(document service, mock vector store, store factory, document chunker and
embedding service), translated from the TypeScript sources under
src/services and src/types.  JavaScript strings are modelled as Lean
strings (lists of characters); JavaScript numbers that the code uses as
counts or sizes are modelled as naturals; floating point similarity
scores are modelled as rationals; nondeterministic or external inputs
(Math.random scores, remote embedding backends) are modelled as explicit
function parameters (oracles).
-/

namespace MCPDoc

abbrev Chars := List Char

/-- JavaScript truthiness of an optional string: absent and the empty
string are falsy. -/
def strOptTruthy : Option String → Bool
  | none => false
  | some s => s != ("")

/-- JavaScript truthiness of an optional number (here a natural):
absent and 0 are falsy. -/
def natOptTruthy : Option Nat → Bool
  | none => false
  | some n => n != 0

/-- JavaScript truthiness of an optional boolean: absent and false are
falsy. -/
def boolOptTruthy : Option Bool → Bool
  | none => false
  | some b => b

/-- Lowercasing of a character sequence, modelling
String.prototype.toLowerCase on the ASCII range used by the code. -/
def lowerChars (cs : Chars) : Chars := cs.map Char.toLower

/-- Lowercased copy of a string (the code calls toLowerCase before
substring matching). -/
def jsToLower (s : String) : String := String.mk (lowerChars s.toList)

/-- String.prototype.includes: the needle occurs contiguously in the
haystack. -/
def containsSub (needle hay : Chars) : Bool :=
  (List.range (hay.length + 1)).any fun i => needle.isPrefixOf (hay.drop i)

/-- Lexicographic code-unit comparison of character sequences, the order
used by the JavaScript default Array.prototype.sort on strings. -/
def lexLe : Chars → Chars → Bool
  | [], _ => true
  | _ :: _, [] => false
  | a :: as, b :: bs => if a = b then lexLe as bs else decide (a < b)

/-- Comparison-based insertion of an element into a list, the helper of
`isortLe`. -/
def insertLe {α : Type} (le : α → α → Bool) (x : α) : List α → List α
  | [] => [x]
  | y :: ys => if le x y then x :: y :: ys else y :: insertLe le x ys

/-- Insertion sort by a boolean comparison, modelling
Array.prototype.sort with a comparator (the output is sorted whenever
the comparison is total and transitive, which holds for the comparators
the code passes). -/
def isortLe {α : Type} (le : α → α → Bool) : List α → List α
  | [] => []
  | x :: xs => insertLe le x (isortLe le xs)

/-- First-occurrence deduplication, modelling the insertion-order key
semantics of a JavaScript Map or Set built by successive additions. -/
def insertionDedup {α : Type} [DecidableEq α] (l : List α) : List α :=
  l.foldl (fun acc x => if x ∈ acc then acc else acc ++ [x]) []

/- ---------------------------------------------------------------
Data model, from src/types/mcp.ts and src/services/vector-store.ts.
last_updated / release_date / last_indexed fields are wall-clock
timestamps (new Date().toISOString()) and are not modelled.
--------------------------------------------------------------- -/

structure DocMetadata where
  package : String
  version : String
  url : Option String := none
  title : Option String := none
  sectionName : Option String := none
deriving DecidableEq

structure VectorDocument where
  id : String
  content : String
  embedding : List ℚ
  metadata : DocMetadata
deriving DecidableEq

structure DocumentResult where
  content : String
  score : ℚ
  metadata : DocMetadata
  citations : Option (List String) := none
deriving DecidableEq

structure SearchFilter where
  package : Option String := none
  version : Option String := none
deriving DecidableEq

structure SearchOptions where
  query : String
  filter : Option SearchFilter := none
  limit : Option Nat := none
deriving DecidableEq

structure QueryDocsRequest where
  library : String
  version : String
  question : String
  max_tokens : Option Nat := none
  include_citations : Option Bool := none
deriving DecidableEq

structure QueryDocsResponse where
  results : List DocumentResult
  total_results : Nat
  query_time_ms : Nat
deriving DecidableEq

structure PackageInfo where
  name : String
  versions : List String
deriving DecidableEq

structure VersionInfo where
  version : String
  doc_count : Nat
deriving DecidableEq

/- ---------------------------------------------------------------
DocumentService, from src/services/document-service.ts.
The vector store behind the service is abstracted as a function from
search options to results, as in the class it is an injected
dependency.  Wall-clock query timing is modelled as 0.
--------------------------------------------------------------- -/

namespace DocumentService

/-- First `n` characters of a string, modelling content.slice(0, n) for
nonnegative n. -/
def sliceStr (s : String) (n : Nat) : String := String.mk (s.toList.take n)

/-- DocumentService.truncateResults: truncate each result content to
maxTokens / 0.25 = 4 * maxTokens characters. -/
def truncateResults (results : List DocumentResult) (maxTokens : Nat) :
    List DocumentResult :=
  results.map fun r => { r with content := sliceStr r.content (4 * maxTokens) }

/-- DocumentService.addCitations: attach the metadata url as the single
citation when it is truthy, else an empty citation list. -/
def addCitations (results : List DocumentResult) : List DocumentResult :=
  results.map fun r =>
    let cit : List String :=
      if strOptTruthy r.metadata.url then [r.metadata.url.getD ("")] else []
    { r with citations := some cit }

/-- The search options DocumentService.queryDocuments passes to
VectorStore.search: the question as query, the request library and
version as the filter, and a hardcoded limit of 5. -/
def queryOptions (request : QueryDocsRequest) : SearchOptions :=
  { query := request.question
    filter := some { package := some request.library, version := some request.version }
    limit := some 5 }

/-- DocumentService.queryDocuments over an abstract store search
function. -/
def queryDocuments (search : SearchOptions → List DocumentResult)
    (request : QueryDocsRequest) : QueryDocsResponse :=
  let searchResults := search (queryOptions request)
  let results1 :=
    if natOptTruthy request.max_tokens then
      truncateResults searchResults (request.max_tokens.getD 0)
    else searchResults
  let results2 :=
    if boolOptTruthy request.include_citations then addCitations results1
    else results1
  { results := results2
    total_results := results2.length
    query_time_ms := 0 }

end DocumentService

/- ---------------------------------------------------------------
MockVectorStore, from src/services/vector-store.ts.  The document
store state is the list of added documents in insertion order; the
Math.random mock score is an oracle parameter.
--------------------------------------------------------------- -/

namespace MockVectorStore

/-- The package-filter stage of MockVectorStore.search: applied only
when options.filter?.package is truthy. -/
def filterByPackage (filter : Option SearchFilter) (docs : List VectorDocument) :
    List VectorDocument :=
  match filter with
  | some f =>
    if strOptTruthy f.package then
      docs.filter fun d => d.metadata.package == f.package.getD ("")
    else docs
  | none => docs

/-- The version-filter stage of MockVectorStore.search: applied only
when options.filter?.version is truthy. -/
def filterByVersion (filter : Option SearchFilter) (docs : List VectorDocument) :
    List VectorDocument :=
  match filter with
  | some f =>
    if strOptTruthy f.version then
      docs.filter fun d => d.metadata.version == f.version.getD ("")
    else docs
  | none => docs

/-- The effective result cap of MockVectorStore.search:
options.limit || 5, so absent or 0 fall back to 5. -/
def effLimit : Option Nat → Nat
  | none => 5
  | some n => if n = 0 then 5 else n

/-- The comparator b.score - a.score the code passes to sort: descending
by score. -/
def scoreDesc (a b : DocumentResult) : Bool := decide (b.score ≤ a.score)

/-- MockVectorStore.search: filter by package and version, keep the
documents whose lowercased content contains the lowercased query, score
each by the oracle (Math.random in the code), sort descending by score
and cap at the effective limit. -/
def search (docs : List VectorDocument) (scoreOf : VectorDocument → ℚ)
    (options : SearchOptions) : List DocumentResult :=
  let filtered := filterByVersion options.filter (filterByPackage options.filter docs)
  let q := lowerChars options.query.toList
  let matched := filtered.filter fun d => containsSub q (lowerChars d.content.toList)
  let results := matched.map fun d =>
    ({ content := d.content, score := scoreOf d, metadata := d.metadata } : DocumentResult)
  (isortLe scoreDesc results).take (effLimit options.limit)

/-- MockVectorStore.listPackages: one entry per package in Map insertion
order, each with its distinct versions sorted by the JavaScript default
(ascending lexicographic) sort. -/
def listPackages (docs : List VectorDocument) : List PackageInfo :=
  (insertionDedup (docs.map fun d => d.metadata.package)).map fun name =>
    let vers := insertionDedup
      ((docs.filter fun d => d.metadata.package == name).map fun d => d.metadata.version)
    { name := name
      versions := isortLe (fun a b : String => lexLe a.toList b.toList) vers }

/-- MockVectorStore.listVersions: counts per distinct version of the
package in insertion order, or the "Package not found" error when the
package has no documents. -/
def listVersions (docs : List VectorDocument) (packageName : String) :
    Except String (List VersionInfo) :=
  let matching := docs.filter fun d => d.metadata.package == packageName
  let versions := insertionDedup (matching.map fun d => d.metadata.version)
  if versions = [] then .error ("Package not found")
  else .ok (versions.map fun v =>
    { version := v
      doc_count := (matching.filter fun d => d.metadata.version == v).length })

/-- MockVectorStore.deletePackageVersion: keep exactly the documents not
matching both fields. -/
def deletePackageVersion (docs : List VectorDocument) (packageName version : String) :
    List VectorDocument :=
  docs.filter fun d =>
    !(d.metadata.package == packageName && d.metadata.version == version)

end MockVectorStore

/- ---------------------------------------------------------------
VectorStoreFactory, from src/services/vector-store-factory.ts.
The static cached instance plus a fresh-identity counter form the
factory state; stores are given a numeric identity so that distinct
constructions are distinguishable.  The sqlite branch falls back to the
mock store as in the code.
--------------------------------------------------------------- -/

inductive VectorStoreType
  | mock | sqlite | postgres | qdrant
deriving DecidableEq

inductive StoreKind
  | mockStore | postgresStore | qdrantStore
deriving DecidableEq

structure StoreInst where
  ident : Nat
  kind : StoreKind
  initialized : Bool
deriving DecidableEq

structure FactoryState where
  inst : Option StoreInst
  nextId : Nat
deriving DecidableEq

namespace VectorStoreFactory

/-- The process start state: no cached instance. -/
def initialState : FactoryState := { inst := none, nextId := 0 }

/-- The switch on the store type in VectorStoreFactory.create; sqlite is
not implemented and falls back to the mock store. -/
def storeKindFor : VectorStoreType → StoreKind
  | .mock => .mockStore
  | .sqlite => .mockStore
  | .postgres => .postgresStore
  | .qdrant => .qdrantStore

/-- VectorStoreFactory.create: return the cached instance when present,
else construct a store of the requested type, initialize it and cache
it. -/
def create (s : FactoryState) (t : VectorStoreType) : FactoryState × StoreInst :=
  match s.inst with
  | some st => (s, st)
  | none =>
    let st : StoreInst := { ident := s.nextId, kind := storeKindFor t, initialized := true }
    ({ inst := some st, nextId := s.nextId + 1 }, st)

/-- VectorStoreFactory.close: close the cached instance when present and
clear the cache. -/
def close (s : FactoryState) : FactoryState :=
  match s.inst with
  | some _ => { s with inst := none }
  | none => s

/-- VectorStoreFactory.reset: clear the cache without closing. -/
def reset (s : FactoryState) : FactoryState := { s with inst := none }

end VectorStoreFactory

/- ---------------------------------------------------------------
Shared character-level helpers for the chunker and the embedding
service (both use the sentence regex and String.prototype.trim).
--------------------------------------------------------------- -/

/-- Sentence-terminal punctuation, the character class [.!?] of the
sentence regex. -/
def isPunct (c : Char) : Bool := c == '.' || c == '!' || c == '?'

def isNotPunct (c : Char) : Bool := !(isPunct c)

/-- Fueled scanner computing all matches of the JavaScript regex
/[^.!?]+[.!?]+/g: skip punctuation that cannot start a match, take the
maximal run of non-punctuation, require a following run of punctuation,
emit both together, continue. -/
def matchSentencesFuel : Nat → Chars → List Chars
  | 0, _ => []
  | fuel + 1, cs =>
    let start := cs.dropWhile isPunct
    let r := start.takeWhile isNotPunct
    let rest := start.dropWhile isNotPunct
    if rest.isEmpty then []
    else
      let p := rest.takeWhile isPunct
      let rest2 := rest.dropWhile isPunct
      (r ++ p) :: matchSentencesFuel fuel rest2

/-- All matches of /[^.!?]+[.!?]+/g in the text (the fuel strictly
exceeds the length, so the scanner always runs to completion). -/
def jsMatchSentences (cs : Chars) : List Chars :=
  matchSentencesFuel (cs.length + 1) cs

/-- text.match(/[^.!?]+[.!?]+/g) || [text]: the whole text is the single
unit when the regex finds no match. -/
def splitSentences (cs : Chars) : List Chars :=
  match jsMatchSentences cs with
  | [] => [cs]
  | l => l

/-- String.prototype.trim: drop whitespace from both ends. -/
def jsTrim (cs : Chars) : Chars :=
  ((cs.dropWhile Char.isWhitespace).reverse.dropWhile Char.isWhitespace).reverse

/- ---------------------------------------------------------------
DocumentScraper chunker, from src/services/scraper.ts.
--------------------------------------------------------------- -/

structure ChunkOptions where
  maxChunkSize : Nat
  overlap : Nat
deriving DecidableEq

structure DocSection where
  title : Chars
  content : Chars
deriving DecidableEq

structure DocumentChunk where
  content : Chars
  sectionTitle : Chars
  chunkIndex : Nat
  totalChunks : Nat
deriving DecidableEq

namespace DocumentScraper

/-- text.slice(-k).  JavaScript slice with argument -0 is slice(0), the
whole string; with -k for k > 0 it is the last k characters. -/
def jsSliceNeg (cs : Chars) (k : Nat) : Chars :=
  if k = 0 then cs else cs.drop (cs.length - k)

/-- Index set of occurrences of ". " used for lastIndexOf('. '). -/
def dotSpaceAt (cs : Chars) (i : Nat) : Bool :=
  List.isPrefixOf ([ '.', ' ' ]) (cs.drop i)

/-- lastPart.lastIndexOf('. ') as an option (the code compares the -1
failure value with > 0, here split into the none case and the index). -/
def lastDotSpace (cs : Chars) : Option Nat :=
  ((List.range cs.length).filter (dotSpaceAt cs)).getLast?

/-- The word-boundary fallback of getOverlapText: cut after the first
space when it is at a positive index, else keep the raw tail. -/
def wordFallback (lastPart : Chars) : Chars :=
  match lastPart.findIdx? (fun c => c == ' ') with
  | some w => if 0 < w then lastPart.drop (w + 1) else lastPart
  | none => lastPart

/-- DocumentScraper.getOverlapText: whole text when not longer than the
overlap size, else the tail slice trimmed to just after the last ". "
sentence boundary when one sits at a positive index, else to after the
first word boundary, else the raw tail. -/
def getOverlapText (text : Chars) (overlapSize : Nat) : Chars :=
  if text.length ≤ overlapSize then text
  else
    let lastPart := jsSliceNeg text overlapSize
    match lastDotSpace lastPart with
    | some j => if 0 < j then lastPart.drop (j + 2) else wordFallback lastPart
    | none => wordFallback lastPart

/-- One step of the sentence accumulation loop of
DocumentScraper.chunkText, on the pair (chunks so far, current
buffer). -/
def chunkStep (maxChunkSize overlap : Nat) (acc : List Chars × Chars)
    (sentence : Chars) : List Chars × Chars :=
  let chunks := acc.1
  let currentChunk := acc.2
  if maxChunkSize < currentChunk.length + sentence.length ∧ currentChunk ≠ [] then
    (chunks ++ [jsTrim currentChunk], getOverlapText currentChunk overlap ++ sentence)
  else (chunks, currentChunk ++ sentence)

/-- DocumentScraper.chunkText: greedy sentence accumulation with the
overlap suffix seeding each new buffer, plus the final trimmed flush. -/
def chunkText (text : Chars) (maxChunkSize overlap : Nat) : List Chars :=
  let sentences := splitSentences text
  let res := sentences.foldl (chunkStep maxChunkSize overlap) ([], [])
  if jsTrim res.2 ≠ [] then res.1 ++ [jsTrim res.2] else res.1

/-- One step of the line loop of DocumentScraper.splitIntoSections, on
the pair (flushed sections, current section). -/
def sectionStep (acc : List DocSection × DocSection) (line : Chars) :
    List DocSection × DocSection :=
  let sections := acc.1
  let cur := acc.2
  if line.take 2 = [ '#', ' ' ] then
    let sections2 := if jsTrim cur.content ≠ [] then sections ++ [cur] else sections
    (sections2, { title := jsTrim (line.drop 2), content := line ++ [ '\n' ] })
  else (sections, { cur with content := cur.content ++ line ++ [ '\n' ] })

/-- DocumentScraper.splitIntoSections: split at top-level markdown
headings, leading text falling into an implicit Introduction section;
sections whose content trims to nothing are not emitted. -/
def splitIntoSections (content : Chars) : List DocSection :=
  let lines := content.splitOn '\n'
  let res := lines.foldl sectionStep ([], { title := ("Introduction").toList, content := [] })
  if jsTrim res.2.content ≠ [] then res.1 ++ [res.2] else res.1

/-- DocumentScraper.chunkDocument: chunk each section, tag each chunk
with its section title and running index, and backfill the total chunk
count afterwards. -/
def chunkDocument (content : Chars) (options : ChunkOptions) : List DocumentChunk :=
  let sections := splitIntoSections content
  let pre := sections.foldl
    (fun acc s =>
      acc ++ (chunkText s.content options.maxChunkSize options.overlap).map
        (fun c => (c, s.title))) []
  let total := pre.length
  pre.enum.map fun ic =>
    { content := ic.2.1, sectionTitle := ic.2.2, chunkIndex := ic.1, totalChunks := total }

end DocumentScraper

/- ---------------------------------------------------------------
EmbeddingService, from src/services/embeddings.ts.  The remote
embedding backend (OpenAI or Ollama) is an oracle parameter; the token
estimate text.length / 4 compared against maxTokensPerChunk is the
exact comparison text.length against 4 * maxTokensPerChunk.
--------------------------------------------------------------- -/

namespace EmbeddingService

/-- One step of the sentence accumulation loop of
EmbeddingService.chunkText (unlike the scraper loop this one has no
overlap seeding and tests the buffer with the sentence appended). -/
def chunkStep (maxTokensPerChunk : Nat) (acc : List Chars × Chars)
    (sentence : Chars) : List Chars × Chars :=
  let chunks := acc.1
  let currentChunk := acc.2
  let chunkWithSentence := currentChunk ++ sentence
  if 4 * maxTokensPerChunk < chunkWithSentence.length ∧ currentChunk ≠ [] then
    (chunks ++ [jsTrim currentChunk], sentence)
  else (chunks, chunkWithSentence)

/-- EmbeddingService.chunkText: the whole text as a single chunk when
its token estimate is within the limit, else sentence-bounded
re-splitting. -/
def chunkText (maxTokensPerChunk : Nat) (text : Chars) : List Chars :=
  if text.length ≤ 4 * maxTokensPerChunk then [text]
  else
    let res := (splitSentences text).foldl (chunkStep maxTokensPerChunk) ([], [])
    if res.2 ≠ [] then res.1 ++ [jsTrim res.2] else res.1

/-- EmbeddingService.averageEmbeddings: per-index sums divided by the
count.  The code throws on an empty list (unreachable from embed);
index access past an embedding's length (NaN in JavaScript) is not
exercised because the backend dimension is fixed. -/
def averageEmbeddings (embeddings : List (List ℚ)) : List ℚ :=
  match embeddings with
  | [] => []
  | e0 :: _ =>
    (List.range e0.length).map fun i =>
      (embeddings.foldl (fun acc e => acc + e.getD i 0) 0) / (embeddings.length : ℚ)

/-- EmbeddingService.embed: chunk, then either a single backend call or
the average of the batch of backend calls. -/
def embed (embedSingle : Chars → List ℚ) (maxTokensPerChunk : Nat)
    (text : Chars) : List ℚ :=
  let chunks := chunkText maxTokensPerChunk text
  if chunks.length = 1 then embedSingle (chunks.getD 0 [])
  else averageEmbeddings (chunks.map embedSingle)

end EmbeddingService

/- ---------------------------------------------------------------
Helper lemmas about the embedding's generic list machinery.
--------------------------------------------------------------- -/

theorem perm_insertLe {α : Type} (le : α → α → Bool) (x : α) (l : List α) :
    (insertLe le x l).Perm (x :: l) := by
  induction l with
  | nil => simp [insertLe]
  | cons y ys ih =>
    simp only [insertLe]
    by_cases h : le x y = true
    · simp [h]
    · simp only [h, if_false]
      exact ((ih.cons y).trans (List.Perm.swap x y ys))

theorem mem_insertLe {α : Type} (le : α → α → Bool) (x a : α) (l : List α) :
    a ∈ insertLe le x l ↔ a = x ∨ a ∈ l := by
  rw [(perm_insertLe le x l).mem_iff]
  simp

theorem perm_isortLe {α : Type} (le : α → α → Bool) (l : List α) :
    (isortLe le l).Perm l := by
  induction l with
  | nil => simp [isortLe]
  | cons x xs ih =>
    exact (perm_insertLe le x (isortLe le xs)).trans (ih.cons x)

theorem mem_isortLe {α : Type} (le : α → α → Bool) (a : α) (l : List α) :
    a ∈ isortLe le l ↔ a ∈ l :=
  (perm_isortLe le l).mem_iff

theorem length_isortLe {α : Type} (le : α → α → Bool) (l : List α) :
    (isortLe le l).length = l.length :=
  (perm_isortLe le l).length_eq

theorem sorted_insertLe {α : Type} (le : α → α → Bool)
    (htot : ∀ a b, le a b = true ∨ le b a = true)
    (htr : ∀ a b c, le a b = true → le b c = true → le a c = true)
    (x : α) (l : List α) (hl : l.Sorted (fun a b => le a b = true)) :
    (insertLe le x l).Sorted (fun a b => le a b = true) := by
  induction l with
  | nil => simp [insertLe]
  | cons y ys ih =>
    rw [List.sorted_cons] at hl
    cases hle : le x y with
    | true =>
      have heq : insertLe le x (y :: ys) = x :: y :: ys := by simp [insertLe, hle]
      rw [heq, List.sorted_cons]
      refine ⟨?_, ?_⟩
      · intro b hb
        rcases List.mem_cons.mp hb with rfl | hb
        · exact hle
        · exact htr x y b hle (hl.1 b hb)
      · rw [List.sorted_cons]; exact hl
    | false =>
      have heq : insertLe le x (y :: ys) = y :: insertLe le x ys := by
        simp [insertLe, hle]
      rw [heq, List.sorted_cons]
      refine ⟨?_, ih hl.2⟩
      intro b hb
      rcases (mem_insertLe le x b ys).mp hb with rfl | hb
      · rcases htot b y with hxy | hyx
        · rw [hle] at hxy
          exact absurd hxy (by simp)
        · exact hyx
      · exact hl.1 b hb

theorem sorted_isortLe {α : Type} (le : α → α → Bool)
    (htot : ∀ a b, le a b = true ∨ le b a = true)
    (htr : ∀ a b c, le a b = true → le b c = true → le a c = true)
    (l : List α) : (isortLe le l).Sorted (fun a b => le a b = true) := by
  induction l with
  | nil => simp [isortLe]
  | cons x xs ih => exact sorted_insertLe le htot htr x (isortLe le xs) ih

theorem insertionDedup_foldl {α : Type} [DecidableEq α] (l acc : List α)
    (h : acc.Nodup) :
    (l.foldl (fun acc x => if x ∈ acc then acc else acc ++ [x]) acc).Nodup ∧
    ∀ a, a ∈ l.foldl (fun acc x => if x ∈ acc then acc else acc ++ [x]) acc ↔
      a ∈ acc ∨ a ∈ l := by
  induction l generalizing acc with
  | nil => simpa using h
  | cons x xs ih =>
    simp only [List.foldl_cons]
    by_cases hx : x ∈ acc
    · simp only [hx, if_true]
      rcases ih acc h with ⟨h1, h2⟩
      refine ⟨h1, fun a => (h2 a).trans ?_⟩
      constructor
      · rintro (ha | ha)
        · exact Or.inl ha
        · exact Or.inr (List.mem_cons_of_mem x ha)
      · rintro (ha | ha)
        · exact Or.inl ha
        · rcases List.mem_cons.mp ha with rfl | ha
          · exact Or.inl hx
          · exact Or.inr ha
    · simp only [hx, if_false]
      have hnodup : (acc ++ [x]).Nodup := by
        rw [List.nodup_append]
        exact ⟨h, List.nodup_singleton x, by simpa using hx⟩
      rcases ih (acc ++ [x]) hnodup with ⟨h1, h2⟩
      refine ⟨h1, fun a => (h2 a).trans ?_⟩
      simp only [List.mem_append, List.mem_singleton, List.mem_cons]
      tauto

theorem nodup_insertionDedup {α : Type} [DecidableEq α] (l : List α) :
    (insertionDedup l).Nodup :=
  (insertionDedup_foldl l [] (List.nodup_nil)).1

theorem mem_insertionDedup {α : Type} [DecidableEq α] (a : α) (l : List α) :
    a ∈ insertionDedup l ↔ a ∈ l := by
  have h := (insertionDedup_foldl l [] (List.nodup_nil)).2 a
  simpa [insertionDedup] using h

theorem foldl_append_map_join {α β : Type} (f : α → List β) (l : List α)
    (init : List β) :
    l.foldl (fun acc s => acc ++ f s) init = init ++ (l.map f).flatten := by
  induction l generalizing init with
  | nil => simp
  | cons x xs ih => simp [ih, List.append_assoc]

theorem foldl_add_map_sum {α : Type} (f : α → ℚ) (l : List α) (a : ℚ) :
    l.foldl (fun acc x => acc + f x) a = a + (l.map f).sum := by
  induction l generalizing a with
  | nil => simp
  | cons x xs ih => simp [ih, add_assoc]

theorem length_jsTrim_le (cs : Chars) : (jsTrim cs).length ≤ cs.length := by
  have h1 : (cs.dropWhile Char.isWhitespace).length ≤ cs.length :=
    (List.dropWhile_sublist Char.isWhitespace).length_le
  have h2 : ((cs.dropWhile Char.isWhitespace).reverse.dropWhile
      Char.isWhitespace).length ≤ (cs.dropWhile Char.isWhitespace).reverse.length :=
    (List.dropWhile_sublist Char.isWhitespace).length_le
  simp only [jsTrim, List.length_reverse] at *
  omega

theorem lexLe_total (a b : Chars) : lexLe a b = true ∨ lexLe b a = true := by
  induction a generalizing b with
  | nil => simp [lexLe]
  | cons x xs ih =>
    cases b with
    | nil => simp [lexLe]
    | cons y ys =>
      by_cases hxy : x = y
      · subst hxy
        simpa [lexLe] using ih ys
      · rcases lt_trichotomy x y with h | h | h
        · left; simp [lexLe, hxy, h]
        · exact absurd h hxy
        · right
          have hyx : y ≠ x := fun hc => hxy hc.symm
          simp [lexLe, hyx, h]

theorem lexLe_trans (a b c : Chars) (hab : lexLe a b = true)
    (hbc : lexLe b c = true) : lexLe a c = true := by
  induction a generalizing b c with
  | nil => simp [lexLe]
  | cons x xs ih =>
    cases b with
    | nil => simp [lexLe] at hab
    | cons y ys =>
      cases c with
      | nil => simp [lexLe] at hbc
      | cons z zs =>
        by_cases hxy : x = y <;> by_cases hyz : y = z
        · subst hxy; subst hyz
          simp only [lexLe, if_pos rfl] at *
          exact ih ys zs hab hbc
        · subst hxy
          simp only [lexLe, if_pos rfl] at hab
          simp only [lexLe, if_neg hyz] at hbc
          simp only [lexLe, if_neg hyz]
          exact hbc
        · subst hyz
          simp only [lexLe, if_neg hxy] at hab
          simp only [lexLe, if_neg hxy]
          exact hab
        · simp only [lexLe, if_neg hxy] at hab
          simp only [lexLe, if_neg hyz] at hbc
          have hlt : x < z := lt_trans (of_decide_eq_true hab) (of_decide_eq_true hbc)
          by_cases hxz : x = z
          · subst hxz; exact absurd hlt (lt_irrefl x)
          · simp [lexLe, hxz, hlt]

theorem length_sliceStr_le (s : String) (n : Nat) :
    (DocumentService.sliceStr s n).length ≤ n := by
  have h : (DocumentService.sliceStr s n).length = (s.toList.take n).length :=
    String.length_mk _
  rw [h, List.length_take]
  exact min_le_left _ _

theorem map_content_addCitations (l : List DocumentResult) :
    (DocumentService.addCitations l).map DocumentResult.content =
      l.map DocumentResult.content := by
  simp [DocumentService.addCitations, List.map_map, Function.comp]

/- ---------------------------------------------------------------
Claims about the Document Service (C1, C2, C10).
--------------------------------------------------------------- -/

/-- Claim C1: every queryDocuments request is delegated to
VectorStore.search with filter package = request.library,
version = request.version and a limit fixed at 5; no caller-supplied
result count is honored, since the response depends on the search
function only through its value at exactly these options. -/
theorem claim_C1 (s₁ s₂ : SearchOptions → List DocumentResult)
    (req : QueryDocsRequest) :
    DocumentService.queryOptions req =
      { query := req.question
        filter := some { package := some req.library, version := some req.version }
        limit := some 5 }
    ∧ (s₁ (DocumentService.queryOptions req) = s₂ (DocumentService.queryOptions req) →
        DocumentService.queryDocuments s₁ req = DocumentService.queryDocuments s₂ req) := by
  refine ⟨rfl, fun h => ?_⟩
  simp only [DocumentService.queryDocuments, h]

theorem claim_C1_witness :
    DocumentService.queryOptions ⟨("next"), ("14.2.2"), ("q"), none, none⟩ =
      { query := ("q")
        filter := some { package := some ("next"), version := some ("14.2.2") }
        limit := some 5 }
    ∧ DocumentService.queryDocuments (fun _ => [])
        ⟨("next"), ("14.2.2"), ("q"), none, none⟩ =
      DocumentService.queryDocuments
        (fun o => if o.limit = some 5 then []
          else [⟨("x"), 0, ⟨("p"), ("v"), none, none, none⟩, none⟩])
        ⟨("next"), ("14.2.2"), ("q"), none, none⟩ :=
  ⟨(claim_C1 (fun _ => []) (fun _ => []) ⟨("next"), ("14.2.2"), ("q"), none, none⟩).1,
    (claim_C1 (fun _ => [])
      (fun o => if o.limit = some 5 then []
        else [⟨("x"), 0, ⟨("p"), ("v"), none, none, none⟩, none⟩])
      ⟨("next"), ("14.2.2"), ("q"), none, none⟩).2 (by decide)⟩

/-- Claim C2 counterexample: the claim quantifies over every request in
which max_tokens is present, but a present max_tokens of 0 is falsy in
the guard and no truncation happens (the content stays "ab" instead of
the first 0 characters), and when include_citations is set the citations
field of each result is rewritten, so not every other field is
unchanged. -/
theorem claim_C2_counterexample :
    (⟨("a"), ("1"), ("q"), some 0, none⟩ : QueryDocsRequest).max_tokens = some 0
    ∧ (DocumentService.queryDocuments
        (fun _ => [⟨("ab"), 1, ⟨("a"), ("1"), none, none, none⟩, none⟩])
        ⟨("a"), ("1"), ("q"), some 0, none⟩).results.map DocumentResult.content
        = [("ab")]
    ∧ ("ab") ≠ DocumentService.sliceStr ("ab") (4 * 0)
    ∧ (DocumentService.queryDocuments
        (fun _ => [⟨("abcdefgh"), 1, ⟨("a"), ("1"), some ("u"), none, none⟩, none⟩])
        ⟨("a"), ("1"), ("q"), some 1, some true⟩).results.map DocumentResult.citations
        = [some [("u")]]
    ∧ (some [("u")] : Option (List String)) ≠ none := by
  refine ⟨rfl, by decide, by decide, by decide, by decide⟩

/-- Claim C2 (amended): for every queryDocuments request in which
max_tokens is present and positive, each returned result's content
equals the first max_tokens * 4 characters of the stored content as a
raw character slice, and every other field of the result is unchanged
except that the citations field is additionally rewritten when
include_citations is set; in particular each returned content has at
most max_tokens * 4 characters (so at most 200 for max_tokens = 50). -/
theorem claim_C2_amended (search : SearchOptions → List DocumentResult)
    (req : QueryDocsRequest) (m : Nat) (hm : req.max_tokens = some m)
    (hpos : 0 < m) :
    (req.include_citations = none ∨ req.include_citations = some false →
      (DocumentService.queryDocuments search req).results =
        (search (DocumentService.queryOptions req)).map
          (fun r => { r with content := DocumentService.sliceStr r.content (4 * m) }))
    ∧ (req.include_citations = some true →
      (DocumentService.queryDocuments search req).results =
        DocumentService.addCitations
          ((search (DocumentService.queryOptions req)).map
            (fun r => { r with content := DocumentService.sliceStr r.content (4 * m) })))
    ∧ (∀ r ∈ (DocumentService.queryDocuments search req).results,
        r.content.length ≤ 4 * m) := by
  have hmt : natOptTruthy req.max_tokens = true := by
    rw [hm]
    simpa [natOptTruthy] using Nat.pos_iff_ne_zero.mp hpos
  have hget : req.max_tokens.getD 0 = m := by rw [hm]; rfl
  have hres : (DocumentService.queryDocuments search req).results =
      if boolOptTruthy req.include_citations then
        DocumentService.addCitations
          ((search (DocumentService.queryOptions req)).map
            (fun r => { r with content := DocumentService.sliceStr r.content (4 * m) }))
      else
        (search (DocumentService.queryOptions req)).map
          (fun r => { r with content := DocumentService.sliceStr r.content (4 * m) }) := by
    simp [DocumentService.queryDocuments, hmt, hget, DocumentService.truncateResults]
  refine ⟨?_, ?_, ?_⟩
  · rintro (hc | hc) <;> simp [hres, hc, boolOptTruthy]
  · intro hc
    simp [hres, hc, boolOptTruthy]
  · intro r hr
    rw [hres] at hr
    cases hb : boolOptTruthy req.include_citations with
    | false =>
      rw [hb, if_neg Bool.false_ne_true] at hr
      rcases List.mem_map.mp hr with ⟨r0, _, rfl⟩
      exact length_sliceStr_le _ _
    | true =>
      rw [hb, if_pos rfl] at hr
      rcases List.mem_map.mp hr with ⟨r1, hr1, rfl⟩
      rcases List.mem_map.mp hr1 with ⟨r0, _, rfl⟩
      exact length_sliceStr_le _ _

theorem claim_C2_amended_witness :
    (DocumentService.queryDocuments
        (fun _ => [⟨("abcdefgh"), 1, ⟨("a"), ("1"), none, none, none⟩, none⟩])
        ⟨("a"), ("1"), ("q"), some 1, none⟩).results =
      ((fun (_ : SearchOptions) =>
          [(⟨("abcdefgh"), 1, ⟨("a"), ("1"), none, none, none⟩, none⟩ : DocumentResult)])
        (DocumentService.queryOptions ⟨("a"), ("1"), ("q"), some 1, none⟩)).map
        (fun r => { r with content := DocumentService.sliceStr r.content (4 * 1) }) :=
  (claim_C2_amended
    (fun _ => [⟨("abcdefgh"), 1, ⟨("a"), ("1"), none, none, none⟩, none⟩])
    ⟨("a"), ("1"), ("q"), some 1, none⟩ 1 rfl (by decide)).1 (Or.inl rfl)

/-- Claim C10: when max_tokens is absent or 0 (both falsy in the guard)
no truncation is applied: each returned content is exactly the stored
content, and when include_citations is also falsy the result list is
returned unchanged. -/
theorem claim_C10 (search : SearchOptions → List DocumentResult)
    (req : QueryDocsRequest)
    (h : req.max_tokens = none ∨ req.max_tokens = some 0) :
    ((DocumentService.queryDocuments search req).results.map DocumentResult.content =
      (search (DocumentService.queryOptions req)).map DocumentResult.content)
    ∧ (req.include_citations = none ∨ req.include_citations = some false →
        (DocumentService.queryDocuments search req).results =
          search (DocumentService.queryOptions req)) := by
  have hmt : natOptTruthy req.max_tokens = false := by
    rcases h with h | h <;> simp [h, natOptTruthy]
  constructor
  · cases hb : boolOptTruthy req.include_citations with
    | false => simp [DocumentService.queryDocuments, hmt, hb]
    | true =>
      simp only [DocumentService.queryDocuments, hmt, hb, Bool.false_eq_true,
        if_false, if_pos rfl]
      exact map_content_addCitations _
  · intro hc
    have hbc : boolOptTruthy req.include_citations = false := by
      rcases hc with hc | hc <;> simp [hc, boolOptTruthy]
    simp [DocumentService.queryDocuments, hmt, hbc]

theorem claim_C10_witness :
    (DocumentService.queryDocuments
        (fun _ => [⟨("hello"), 1, ⟨("a"), ("1"), none, none, none⟩, none⟩])
        ⟨("a"), ("1"), ("q"), none, none⟩).results =
      (fun (_ : SearchOptions) =>
          [(⟨("hello"), 1, ⟨("a"), ("1"), none, none, none⟩, none⟩ : DocumentResult)])
        (DocumentService.queryOptions ⟨("a"), ("1"), ("q"), none, none⟩) :=
  (claim_C10
    (fun _ => [⟨("hello"), 1, ⟨("a"), ("1"), none, none, none⟩, none⟩])
    ⟨("a"), ("1"), ("q"), none, none⟩ (Or.inl rfl)).2 (Or.inl rfl)

/- ---------------------------------------------------------------
Claim about the store factory singleton (C7).
--------------------------------------------------------------- -/

/-- Claim C7 counterexample: after close() the cached singleton is
already cleared by close itself, so the very next create() constructs a
new, distinct instance with no explicit reset in between, contradicting
the claim that reconstruction is possible only after an explicit
reset. -/
theorem claim_C7_counterexample :
    (VectorStoreFactory.close
        (VectorStoreFactory.create VectorStoreFactory.initialState
          VectorStoreType.mock).1).inst = none
    ∧ (VectorStoreFactory.create
        (VectorStoreFactory.close
          (VectorStoreFactory.create VectorStoreFactory.initialState
            VectorStoreType.mock).1)
        VectorStoreType.mock).2
      ≠ (VectorStoreFactory.create VectorStoreFactory.initialState
          VectorStoreType.mock).2 := by
  decide

/-- Claim C7 (amended): at most one live store instance exists per
process: with a cached instance every create() returns exactly it (state
untouched) for any requested type; with an empty cache create()
constructs and initializes a fresh store and caches it; close() and
reset() both clear the cache, so after close() the next create()
constructs a new instance directly, no explicit reset being required. -/
theorem claim_C7_amended (s : FactoryState) (st : StoreInst)
    (t u : VectorStoreType) :
    (s.inst = some st → VectorStoreFactory.create s t = (s, st))
    ∧ (s.inst = none →
        (VectorStoreFactory.create s t).1.inst = some (VectorStoreFactory.create s t).2
        ∧ (VectorStoreFactory.create s t).2.initialized = true
        ∧ (VectorStoreFactory.create s t).2.ident = s.nextId
        ∧ (VectorStoreFactory.create s t).2.kind = VectorStoreFactory.storeKindFor t)
    ∧ (VectorStoreFactory.close s).inst = none
    ∧ (VectorStoreFactory.reset s).inst = none
    ∧ (s.inst = some st →
        (VectorStoreFactory.create s t).2 = (VectorStoreFactory.create s u).2) := by
  refine ⟨?_, ?_, ?_, ?_, ?_⟩
  · intro h; simp [VectorStoreFactory.create, h]
  · intro h; simp [VectorStoreFactory.create, h]
  · cases hs : s.inst <;> simp [VectorStoreFactory.close, hs]
  · simp [VectorStoreFactory.reset]
  · intro h; simp [VectorStoreFactory.create, h]

theorem claim_C7_amended_witness :
    VectorStoreFactory.create ⟨some ⟨0, StoreKind.mockStore, true⟩, 1⟩
        VectorStoreType.qdrant =
      (⟨some ⟨0, StoreKind.mockStore, true⟩, 1⟩, ⟨0, StoreKind.mockStore, true⟩) :=
  (claim_C7_amended ⟨some ⟨0, StoreKind.mockStore, true⟩, 1⟩
    ⟨0, StoreKind.mockStore, true⟩ VectorStoreType.qdrant VectorStoreType.mock).1 rfl

/- ---------------------------------------------------------------
Claims about the mock store listing and deletion (C8, C9).
--------------------------------------------------------------- -/

theorem mem_insertionDedup_eq_nil {α : Type} [DecidableEq α] (l : List α) :
    insertionDedup l = [] ↔ l = [] := by
  constructor
  · intro h
    by_contra hl
    rcases List.exists_mem_of_ne_nil l hl with ⟨a, ha⟩
    have : a ∈ insertionDedup l := (mem_insertionDedup a l).mpr ha
    rw [h] at this
    exact absurd this (List.not_mem_nil a)
  · rintro rfl
    rfl

/-- Claim C8: listVersions fails with the "not found" error exactly when
the store holds zero documents of the package; otherwise it returns one
entry per distinct version of the package, each carrying the number of
documents stored for that version. -/
theorem claim_C8 (docs : List VectorDocument) (p : String) :
    (MockVectorStore.listVersions docs p = Except.error ("Package not found") ↔
      ∀ d ∈ docs, d.metadata.package ≠ p)
    ∧ (∀ l, MockVectorStore.listVersions docs p = Except.ok l →
        (l.map VersionInfo.version).Nodup
        ∧ (∀ v, v ∈ l.map VersionInfo.version ↔
            ∃ d ∈ docs, d.metadata.package = p ∧ d.metadata.version = v)
        ∧ (∀ e ∈ l, e.doc_count = docs.countP
            (fun d => d.metadata.package == p && d.metadata.version == e.version))) := by
  have hmatch : ∀ d : VectorDocument,
      (d.metadata.package == p) = true ↔ d.metadata.package = p := by
    intro d; simp
  constructor
  · simp only [MockVectorStore.listVersions]
    by_cases hv : insertionDedup
        ((docs.filter fun d => d.metadata.package == p).map
          fun d => d.metadata.version) = []
    · rw [if_pos hv]
      simp only [true_iff, iff_true]
      rw [mem_insertionDedup_eq_nil, List.map_eq_nil_iff] at hv
      intro d hd hp
      have : d ∈ docs.filter fun d => d.metadata.package == p :=
        List.mem_filter.mpr ⟨hd, (hmatch d).mpr hp⟩
      rw [hv] at this
      exact absurd this (List.not_mem_nil d)
    · rw [if_neg hv]
      constructor
      · intro h; exact absurd h (by simp)
      · intro h
        exfalso
        apply hv
        rw [mem_insertionDedup_eq_nil, List.map_eq_nil_iff, List.filter_eq_nil_iff]
        intro d hd
        simp only [Bool.not_eq_true, beq_eq_false_iff_ne, ne_eq]
        exact h d hd
  · intro l hl
    simp only [MockVectorStore.listVersions] at hl
    by_cases hv : insertionDedup
        ((docs.filter fun d => d.metadata.package == p).map
          fun d => d.metadata.version) = []
    · rw [if_pos hv] at hl
      exact absurd hl (by simp)
    · rw [if_neg hv] at hl
      have hl2 := Except.ok.inj hl
      subst hl2
      have hid : (VersionInfo.version ∘ fun v =>
          (⟨v, ((docs.filter fun d => d.metadata.package == p).filter
            fun d => d.metadata.version == v).length⟩ : VersionInfo)) = id := rfl
      refine ⟨?_, ?_, ?_⟩
      · rw [List.map_map, hid, List.map_id]
        exact nodup_insertionDedup _
      · intro v
        rw [List.map_map, hid, List.map_id, mem_insertionDedup, List.mem_map]
        constructor
        · rintro ⟨d, hd, rfl⟩
          rcases List.mem_filter.mp hd with ⟨hdocs, hp⟩
          exact ⟨d, hdocs, (hmatch d).mp hp, rfl⟩
        · rintro ⟨d, hdocs, hp, rfl⟩
          exact ⟨d, List.mem_filter.mpr ⟨hdocs, (hmatch d).mpr hp⟩, rfl⟩
      · intro e he
        rcases List.mem_map.mp he with ⟨v, _, rfl⟩
        simp only
        rw [List.countP_eq_length_filter, List.filter_filter]
        apply congrArg List.length
        apply List.filter_congr
        intro a _
        exact Bool.and_comm _ _

theorem claim_C8_witness :
    (([(⟨("14.2.2"), 1⟩ : VersionInfo)].map VersionInfo.version).Nodup)
    ∧ (∀ d ∈ ([] : List VectorDocument), d.metadata.package ≠ ("next")) :=
  ⟨((claim_C8 [⟨("1"), ("c"), [], ⟨("next"), ("14.2.2"), none, none, none⟩⟩]
      ("next")).2 [⟨("14.2.2"), 1⟩] rfl).1,
    ((claim_C8 ([] : List VectorDocument) ("next")).1).mp rfl⟩

/-- Claim C9: deletePackageVersion removes exactly the documents whose
package and version both match, keeps every other stored document (in
order and with multiplicity), and is a no-op rather than an error when
nothing matches. -/
theorem claim_C9 (docs : List VectorDocument) (p v : String) :
    (∀ d ∈ MockVectorStore.deletePackageVersion docs p v,
      ¬ (d.metadata.package = p ∧ d.metadata.version = v))
    ∧ (MockVectorStore.deletePackageVersion docs p v).Sublist docs
    ∧ (∀ d : VectorDocument, ¬ (d.metadata.package = p ∧ d.metadata.version = v) →
        (MockVectorStore.deletePackageVersion docs p v).count d = docs.count d)
    ∧ ((∀ d ∈ docs, ¬ (d.metadata.package = p ∧ d.metadata.version = v)) →
        MockVectorStore.deletePackageVersion docs p v = docs) := by
  have hpred : ∀ d : VectorDocument,
      (!(d.metadata.package == p && d.metadata.version == v)) = true ↔
        ¬ (d.metadata.package = p ∧ d.metadata.version = v) := by
    intro d
    simp only [Bool.not_eq_true', Bool.and_eq_false_iff, beq_eq_false_iff_ne, ne_eq]
    tauto
  refine ⟨?_, ?_, ?_, ?_⟩
  · intro d hd
    exact (hpred d).mp (List.mem_filter.mp hd).2
  · exact List.filter_sublist docs
  · intro d hd
    exact List.count_filter ((hpred d).mpr hd)
  · intro h
    apply List.filter_eq_self.mpr
    intro d hd
    exact (hpred d).mpr (h d hd)

/- ---------------------------------------------------------------
Claim about the mock store search (C3).
--------------------------------------------------------------- -/

theorem mem_search_metadata (docs : List VectorDocument)
    (scoreOf : VectorDocument → ℚ) (opts : SearchOptions) (r : DocumentResult)
    (hr : r ∈ MockVectorStore.search docs scoreOf opts) :
    ∃ d, d ∈ MockVectorStore.filterByVersion opts.filter
        (MockVectorStore.filterByPackage opts.filter docs)
      ∧ r.metadata = d.metadata := by
  simp only [MockVectorStore.search] at hr
  have hr2 := List.mem_of_mem_take hr
  rw [mem_isortLe] at hr2
  rcases List.mem_map.mp hr2 with ⟨d, hd, rfl⟩
  exact ⟨d, (List.mem_filter.mp hd).1, rfl⟩

theorem mem_filterByPackage_sub (filter : Option SearchFilter)
    (docs : List VectorDocument) (d : VectorDocument)
    (hd : d ∈ MockVectorStore.filterByPackage filter docs) : d ∈ docs := by
  rcases filter with _ | f
  · exact hd
  · simp only [MockVectorStore.filterByPackage] at hd
    by_cases ht : strOptTruthy f.package = true
    · rw [if_pos ht] at hd
      exact (List.mem_filter.mp hd).1
    · rw [if_neg ht] at hd
      exact hd

/-- Claim C3 counterexample: the claim fails at the JavaScript falsy
edge values.  With filter.package set to the empty string the truthiness
guard skips filtering and a result with package "x" is returned, and
with limit set to 0 the cap falls back to 5 (options.limit || 5), so the
result list is longer than the supplied limit. -/
theorem claim_C3_counterexample :
    ((MockVectorStore.search
        [⟨("1"), ("hello world"), [], ⟨("x"), ("1"), none, none, none⟩⟩]
        (fun _ => 1 / 2)
        ⟨("hello"), some ⟨some (""), none⟩, none⟩).map
      (fun r => r.metadata.package) = [("x")])
    ∧ (("x") : String) ≠ ("")
    ∧ 0 < (MockVectorStore.search
        [⟨("1"), ("hello world"), [], ⟨("x"), ("1"), none, none, none⟩⟩]
        (fun _ => 1 / 2)
        ⟨("hello"), none, some 0⟩).length := by
  refine ⟨by decide, by decide, by decide⟩

/-- Claim C3 (amended): when filter.package is set to a non-empty string
every returned result's package equals it, and likewise for
filter.version (AND-combined when both are non-empty); the result list
is sorted in descending order of score; its length is at most the
effective limit, which is options.limit when that is a positive number
and falls back to 5 when the limit is absent or 0 (the || 5 default
treats a given limit of 0 as absent). -/
theorem claim_C3_amended (docs : List VectorDocument)
    (scoreOf : VectorDocument → ℚ) (opts : SearchOptions) :
    (∀ f p, opts.filter = some f → f.package = some p → p ≠ ("") →
      ∀ r ∈ MockVectorStore.search docs scoreOf opts, r.metadata.package = p)
    ∧ (∀ f v, opts.filter = some f → f.version = some v → v ≠ ("") →
      ∀ r ∈ MockVectorStore.search docs scoreOf opts, r.metadata.version = v)
    ∧ (MockVectorStore.search docs scoreOf opts).Sorted
        (fun a b => b.score ≤ a.score)
    ∧ (MockVectorStore.search docs scoreOf opts).length ≤
        MockVectorStore.effLimit opts.limit
    ∧ (∀ n, opts.limit = some n → 0 < n →
        (MockVectorStore.search docs scoreOf opts).length ≤ n)
    ∧ (opts.limit = none → (MockVectorStore.search docs scoreOf opts).length ≤ 5) := by
  refine ⟨?_, ?_, ?_, ?_, ?_, ?_⟩
  · intro f p hf hp hne r hr
    rcases mem_search_metadata docs scoreOf opts r hr with ⟨d, hd, hmeta⟩
    rw [hf] at hd
    have hd2 : d ∈ MockVectorStore.filterByPackage (some f) docs := by
      simp only [MockVectorStore.filterByVersion] at hd
      by_cases ht : strOptTruthy f.version = true
      · rw [if_pos ht] at hd
        exact (List.mem_filter.mp hd).1
      · rw [if_neg ht] at hd
        exact hd
    simp only [MockVectorStore.filterByPackage] at hd2
    have ht : strOptTruthy f.package = true := by
      rw [hp]
      simpa [strOptTruthy] using hne
    rw [if_pos ht] at hd2
    have := (List.mem_filter.mp hd2).2
    rw [hp] at this
    rw [hmeta]
    exact of_decide_eq_true this
  · intro f v hf hv hne r hr
    rcases mem_search_metadata docs scoreOf opts r hr with ⟨d, hd, hmeta⟩
    rw [hf] at hd
    simp only [MockVectorStore.filterByVersion] at hd
    have ht : strOptTruthy f.version = true := by
      rw [hv]
      simpa [strOptTruthy] using hne
    rw [if_pos ht] at hd
    have := (List.mem_filter.mp hd).2
    rw [hv] at this
    rw [hmeta]
    exact of_decide_eq_true this
  · have hsorted := sorted_isortLe MockVectorStore.scoreDesc
      (fun a b => by
        rcases le_total b.score a.score with h | h
        · left; exact decide_eq_true h
        · right; exact decide_eq_true h)
      (fun a b c hab hbc => decide_eq_true
        (le_trans (of_decide_eq_true hbc) (of_decide_eq_true hab)))
      ((MockVectorStore.filterByVersion opts.filter
          (MockVectorStore.filterByPackage opts.filter docs)).filter
        (fun d => containsSub (lowerChars opts.query.toList)
          (lowerChars d.content.toList)) |>.map
        (fun d => { content := d.content, score := scoreOf d, metadata := d.metadata }))
    have hsorted2 := hsorted.sublist
      (List.take_sublist (MockVectorStore.effLimit opts.limit) _)
    exact hsorted2.imp (fun h => of_decide_eq_true h)
  · simp only [MockVectorStore.search]
    rw [List.length_take]
    exact min_le_left _ _
  · intro n hn hpos
    have h : MockVectorStore.effLimit opts.limit = n := by
      rw [hn]
      simp [MockVectorStore.effLimit, Nat.pos_iff_ne_zero.mp hpos]
    simp only [MockVectorStore.search]
    rw [List.length_take, h]
    exact min_le_left _ _
  · intro hn
    have h : MockVectorStore.effLimit opts.limit = 5 := by
      rw [hn]; rfl
    simp only [MockVectorStore.search]
    rw [List.length_take, h]
    exact min_le_left _ _

theorem claim_C3_amended_witness :
    (∀ r ∈ MockVectorStore.search
        [⟨("1"), ("hi next"), [], ⟨("next"), ("14.2.2"), none, none, none⟩⟩,
         ⟨("2"), ("hi react"), [], ⟨("react"), ("18.3.0"), none, none, none⟩⟩]
        (fun _ => 1 / 2)
        ⟨("hi"), some ⟨some ("next"), none⟩, none⟩, r.metadata.package = ("next"))
    ∧ (∀ r ∈ MockVectorStore.search
        [⟨("1"), ("hi next"), [], ⟨("next"), ("14.2.2"), none, none, none⟩⟩]
        (fun _ => 1 / 2)
        ⟨("hi"), none, some 3⟩, True) ∧
      (MockVectorStore.search
        [⟨("1"), ("hi next"), [], ⟨("next"), ("14.2.2"), none, none, none⟩⟩]
        (fun _ => 1 / 2)
        ⟨("hi"), none, some 3⟩).length ≤ 3 :=
  ⟨(claim_C3_amended
      [⟨("1"), ("hi next"), [], ⟨("next"), ("14.2.2"), none, none, none⟩⟩,
       ⟨("2"), ("hi react"), [], ⟨("react"), ("18.3.0"), none, none, none⟩⟩]
      (fun _ => 1 / 2)
      ⟨("hi"), some ⟨some ("next"), none⟩, none⟩).1
      ⟨some ("next"), none⟩ ("next") rfl rfl (by decide),
    fun r _ => trivial,
    (claim_C3_amended
      [⟨("1"), ("hi next"), [], ⟨("next"), ("14.2.2"), none, none, none⟩⟩]
      (fun _ => 1 / 2)
      ⟨("hi"), none, some 3⟩).2.2.2.2.1 3 rfl (by decide)⟩

/- ---------------------------------------------------------------
Claim about the mock store package listing (C4).
--------------------------------------------------------------- -/

/-- Claim C4 counterexample: on the mock store the entries come out in
first-appearance order, not ascending by name, and each entry's versions
are sorted by the JavaScript default sort, which is ascending, not
descending: with documents b@1, a@2, a@1 the listing is
[b with versions [1], a with versions [1, 2]]. -/
theorem claim_C4_counterexample :
    MockVectorStore.listPackages
        [⟨("1"), ("c"), [], ⟨("b"), ("1"), none, none, none⟩⟩,
         ⟨("2"), ("c"), [], ⟨("a"), ("2"), none, none, none⟩⟩,
         ⟨("3"), ("c"), [], ⟨("a"), ("1"), none, none, none⟩⟩] =
      [⟨("b"), [("1")]⟩, ⟨("a"), [("1"), ("2")]⟩]
    ∧ ¬ List.Sorted (fun a b : PackageInfo => lexLe a.name.toList b.name.toList = true)
        (MockVectorStore.listPackages
          [⟨("1"), ("c"), [], ⟨("b"), ("1"), none, none, none⟩⟩,
           ⟨("2"), ("c"), [], ⟨("a"), ("2"), none, none, none⟩⟩,
           ⟨("3"), ("c"), [], ⟨("a"), ("1"), none, none, none⟩⟩])
    ∧ ¬ (∀ e ∈ MockVectorStore.listPackages
          [⟨("1"), ("c"), [], ⟨("b"), ("1"), none, none, none⟩⟩,
           ⟨("2"), ("c"), [], ⟨("a"), ("2"), none, none, none⟩⟩,
           ⟨("3"), ("c"), [], ⟨("a"), ("1"), none, none, none⟩⟩],
          List.Sorted (fun a b : String => lexLe b.toList a.toList = true) e.versions) := by
  refine ⟨by decide, by decide, by decide⟩

/-- Claim C4 (amended): MockVectorStore.listPackages returns one entry
per distinct package (names distinct and exactly the stored packages),
in order of first appearance rather than ascending by name; each entry's
versions field is that package's distinct versions sorted in ascending
(not descending) lexicographic order.  (The Qdrant and Postgres backends
do sort entries ascending and versions descending; the mock store cited
by the claim does not.) -/
theorem claim_C4_amended (docs : List VectorDocument) :
    ((MockVectorStore.listPackages docs).map PackageInfo.name).Nodup
    ∧ ((MockVectorStore.listPackages docs).map PackageInfo.name =
        insertionDedup (docs.map fun d => d.metadata.package))
    ∧ (∀ p, p ∈ (MockVectorStore.listPackages docs).map PackageInfo.name ↔
        ∃ d ∈ docs, d.metadata.package = p)
    ∧ (∀ e ∈ MockVectorStore.listPackages docs,
        e.versions.Nodup
        ∧ List.Sorted (fun a b : String => lexLe a.toList b.toList = true) e.versions
        ∧ (∀ v, v ∈ e.versions ↔
            ∃ d ∈ docs, d.metadata.package = e.name ∧ d.metadata.version = v)) := by
  have hnames : (MockVectorStore.listPackages docs).map PackageInfo.name =
      insertionDedup (docs.map fun d => d.metadata.package) := by
    simp only [MockVectorStore.listPackages, List.map_map]
    exact List.map_id _
  refine ⟨?_, hnames, ?_, ?_⟩
  · rw [hnames]
    exact nodup_insertionDedup _
  · intro p
    rw [hnames, mem_insertionDedup, List.mem_map]
  · intro e he
    simp only [MockVectorStore.listPackages] at he
    rcases List.mem_map.mp he with ⟨name, _, rfl⟩
    simp only
    constructor
    · rw [(perm_isortLe _ _).nodup_iff]
      exact nodup_insertionDedup _
    constructor
    · exact sorted_isortLe _
        (fun (a b : String) => lexLe_total a.toList b.toList)
        (fun (a b c : String) hab hbc =>
          lexLe_trans a.toList b.toList c.toList hab hbc) _
    · intro v
      rw [mem_isortLe, mem_insertionDedup, List.mem_map]
      constructor
      · rintro ⟨d, hd, rfl⟩
        rcases List.mem_filter.mp hd with ⟨hdocs, hp⟩
        exact ⟨d, hdocs, of_decide_eq_true hp, rfl⟩
      · rintro ⟨d, hdocs, hp, rfl⟩
        exact ⟨d, List.mem_filter.mpr ⟨hdocs, decide_eq_true hp⟩, rfl⟩

theorem claim_C4_amended_witness :
    ([(⟨("a"), [("1"), ("2")]⟩ : PackageInfo)].getD 0 ⟨("z"), []⟩).versions.Nodup
    ∧ (∀ e ∈ MockVectorStore.listPackages
        [⟨("1"), ("c"), [], ⟨("a"), ("2"), none, none, none⟩⟩,
         ⟨("2"), ("c"), [], ⟨("a"), ("1"), none, none, none⟩⟩],
        List.Sorted (fun a b : String => lexLe a.toList b.toList = true) e.versions) :=
  ⟨by decide,
    fun e he =>
      ((claim_C4_amended
        [⟨("1"), ("c"), [], ⟨("a"), ("2"), none, none, none⟩⟩,
         ⟨("2"), ("c"), [], ⟨("a"), ("1"), none, none, none⟩⟩]).2.2.2 e he).2.1⟩

/- ---------------------------------------------------------------
Claim about the chunker bound (C5).
--------------------------------------------------------------- -/

theorem length_wordFallback_le (l : Chars) :
    (DocumentScraper.wordFallback l).length ≤ l.length := by
  simp only [DocumentScraper.wordFallback]
  cases h : l.findIdx? (fun c => c == ' ') with
  | none => exact le_refl _
  | some w =>
    dsimp only
    by_cases hw : 0 < w
    · rw [if_pos hw]
      rw [List.length_drop]
      omega
    · rw [if_neg hw]

theorem length_getOverlapText_le (t : Chars) (k : Nat) (hk : 1 ≤ k) :
    (DocumentScraper.getOverlapText t k).length ≤ k := by
  simp only [DocumentScraper.getOverlapText]
  by_cases hlen : t.length ≤ k
  · rw [if_pos hlen]
    exact hlen
  · rw [if_neg hlen]
    have hk0 : k ≠ 0 := by omega
    have hlast : (DocumentScraper.jsSliceNeg t k).length ≤ k := by
      simp only [DocumentScraper.jsSliceNeg, if_neg hk0, List.length_drop]
      omega
    cases h : DocumentScraper.lastDotSpace (DocumentScraper.jsSliceNeg t k) with
    | none => exact le_trans (length_wordFallback_le _) hlast
    | some j =>
      dsimp only
      by_cases hj : 0 < j
      · rw [if_pos hj]
        calc ((DocumentScraper.jsSliceNeg t k).drop (j + 2)).length
            ≤ (DocumentScraper.jsSliceNeg t k).length := by
              rw [List.length_drop]; omega
          _ ≤ k := hlast
      · rw [if_neg hj]
        exact le_trans (length_wordFallback_le _) hlast

theorem chunkText_fold_bound (maxChunkSize overlap : Nat) (ho : 1 ≤ overlap)
    (sents : List Chars) (hs : ∀ s ∈ sents, s.length ≤ maxChunkSize)
    (acc : List Chars × Chars)
    (hchunks : ∀ c ∈ acc.1, c.length ≤ maxChunkSize + overlap)
    (hcur : acc.2.length ≤ maxChunkSize + overlap) :
    (∀ c ∈ (sents.foldl (DocumentScraper.chunkStep maxChunkSize overlap) acc).1,
      c.length ≤ maxChunkSize + overlap)
    ∧ (sents.foldl (DocumentScraper.chunkStep maxChunkSize overlap) acc).2.length ≤
        maxChunkSize + overlap := by
  induction sents generalizing acc with
  | nil => exact ⟨hchunks, hcur⟩
  | cons s ss ih =>
    rw [List.foldl_cons]
    have hslen : s.length ≤ maxChunkSize := hs s (List.mem_cons_self s ss)
    have hss : ∀ u ∈ ss, u.length ≤ maxChunkSize :=
      fun u hu => hs u (List.mem_cons_of_mem s hu)
    simp only [DocumentScraper.chunkStep]
    by_cases hc : maxChunkSize < acc.2.length + s.length ∧ acc.2 ≠ []
    · rw [if_pos hc]
      apply ih hss
      · intro c hcm
        rcases List.mem_append.mp hcm with hcm | hcm
        · exact hchunks c hcm
        · rcases List.mem_singleton.mp hcm with rfl
          exact le_trans (length_jsTrim_le acc.2) hcur
      · simp only [List.length_append]
        have := length_getOverlapText_le acc.2 overlap ho
        omega
    · rw [if_neg hc]
      refine ih hss _ hchunks ?_
      simp only [List.length_append]
      rcases not_and_or.mp hc with hlt | hnil
      · omega
      · have h2 : acc.2 = [] := not_not.mp hnil
        have h2len : acc.2.length = 0 := by rw [h2]; rfl
        omega

theorem chunkText_bound (text : Chars) (maxChunkSize overlap : Nat)
    (ho : 1 ≤ overlap)
    (hs : ∀ s ∈ splitSentences text, s.length ≤ maxChunkSize) :
    ∀ c ∈ DocumentScraper.chunkText text maxChunkSize overlap,
      c.length ≤ maxChunkSize + overlap := by
  intro c hc
  simp only [DocumentScraper.chunkText] at hc
  have hfold := chunkText_fold_bound maxChunkSize overlap ho
    (splitSentences text) hs ([], []) (by simp) (by simp)
  by_cases hne : jsTrim ((splitSentences text).foldl
      (DocumentScraper.chunkStep maxChunkSize overlap) ([], [])).2 ≠ []
  · rw [if_pos hne] at hc
    rcases List.mem_append.mp hc with hm | hm
    · exact hfold.1 c hm
    · rcases List.mem_singleton.mp hm with rfl
      exact le_trans (length_jsTrim_le _) hfold.2
  · rw [if_neg hne] at hc
    exact hfold.1 c hc

/-- Claim C5 counterexample: the bound maxChunkSize + overlap fails in
two ways.  A single sentence longer than maxChunkSize becomes a chunk on
its own ("aaaaaaaaaaa." with maxChunkSize 10 and overlap 1 yields a
12-character chunk), and with overlap 0 the slice(-0) quirk makes the
overlap suffix the whole previous chunk, so chunks keep growing
("aaa.bbb.ccc.ddd." with maxChunkSize 10 and overlap 0 yields a
12-character and a 16-character chunk). -/
theorem claim_C5_counterexample :
    (∃ ch ∈ DocumentScraper.chunkDocument (("aaaaaaaaaaa.").toList) ⟨10, 1⟩,
      10 + 1 < ch.content.length)
    ∧ (∃ ch ∈ DocumentScraper.chunkDocument (("aaa.bbb.ccc.ddd.").toList) ⟨10, 0⟩,
      10 + 0 < ch.content.length) := by
  refine ⟨by decide, by decide⟩

/-- Claim C5 (amended): for every content string and options with
overlap at least 1, provided every sentence unit of the sentence split
of each section has length at most maxChunkSize, every chunk returned by
chunkDocument has content length at most maxChunkSize + overlap.
Without these provisos the bound can fail: an oversized sentence becomes
an oversized chunk, and with overlap 0 the overlap suffix can be the
entire previous chunk. -/
theorem claim_C5_amended (content : Chars) (maxChunkSize overlap : Nat)
    (ho : 1 ≤ overlap)
    (hs : ∀ sec ∈ DocumentScraper.splitIntoSections content,
      ∀ s ∈ splitSentences sec.content, s.length ≤ maxChunkSize) :
    ∀ ch ∈ DocumentScraper.chunkDocument content ⟨maxChunkSize, overlap⟩,
      ch.content.length ≤ maxChunkSize + overlap := by
  intro ch hch
  simp only [DocumentScraper.chunkDocument] at hch
  rcases List.mem_map.mp hch with ⟨ic, hic, rfl⟩
  have hsnd : ic.2 ∈ (DocumentScraper.splitIntoSections content).foldl
      (fun acc s =>
        acc ++ (DocumentScraper.chunkText s.content maxChunkSize overlap).map
          (fun c => (c, s.title))) [] := by
    have := List.mem_map_of_mem Prod.snd hic
    rwa [List.enum_map_snd] at this
  rw [foldl_append_map_join, List.nil_append, List.mem_flatten] at hsnd
  rcases hsnd with ⟨l, hl, hmem⟩
  rcases List.mem_map.mp hl with ⟨sec, hsec, rfl⟩
  rcases List.mem_map.mp hmem with ⟨c, hc, hpair⟩
  have hclen := chunkText_bound sec.content maxChunkSize overlap ho
    (hs sec hsec) c hc
  have : ic.2.1 = c := by rw [← hpair]
  simpa [this] using hclen

theorem claim_C5_amended_witness :
    (1 ≤ 1)
    ∧ (∀ sec ∈ DocumentScraper.splitIntoSections (("Hi. Yo.").toList),
        ∀ s ∈ splitSentences sec.content, s.length ≤ 4)
    ∧ (∀ ch ∈ DocumentScraper.chunkDocument (("Hi. Yo.").toList) ⟨4, 1⟩,
        ch.content.length ≤ 4 + 1) :=
  ⟨by decide, by decide,
    claim_C5_amended (("Hi. Yo.").toList) 4 1 (by decide) (by decide)⟩

/- ---------------------------------------------------------------
Claim about the embedding length handling (C6).
--------------------------------------------------------------- -/

theorem embChunk_fold_bound (maxTokensPerChunk : Nat) (sents : List Chars)
    (hs : ∀ s ∈ sents, s.length ≤ 4 * maxTokensPerChunk)
    (acc : List Chars × Chars)
    (hchunks : ∀ c ∈ acc.1, c.length ≤ 4 * maxTokensPerChunk)
    (hcur : acc.2.length ≤ 4 * maxTokensPerChunk) :
    (∀ c ∈ (sents.foldl (EmbeddingService.chunkStep maxTokensPerChunk) acc).1,
      c.length ≤ 4 * maxTokensPerChunk)
    ∧ (sents.foldl (EmbeddingService.chunkStep maxTokensPerChunk) acc).2.length ≤
        4 * maxTokensPerChunk := by
  induction sents generalizing acc with
  | nil => exact ⟨hchunks, hcur⟩
  | cons s ss ih =>
    rw [List.foldl_cons]
    have hslen : s.length ≤ 4 * maxTokensPerChunk := hs s (List.mem_cons_self s ss)
    have hss : ∀ u ∈ ss, u.length ≤ 4 * maxTokensPerChunk :=
      fun u hu => hs u (List.mem_cons_of_mem s hu)
    simp only [EmbeddingService.chunkStep]
    by_cases hc : 4 * maxTokensPerChunk < (acc.2 ++ s).length ∧ acc.2 ≠ []
    · rw [if_pos hc]
      refine ih hss _ ?_ hslen
      intro c hcm
      rcases List.mem_append.mp hcm with hcm | hcm
      · exact hchunks c hcm
      · rcases List.mem_singleton.mp hcm with rfl
        exact le_trans (length_jsTrim_le acc.2) hcur
    · rw [if_neg hc]
      refine ih hss _ hchunks ?_
      dsimp only
      rcases not_and_or.mp hc with hlt | hnil
      · omega
      · have h2 : acc.2 = [] := not_not.mp hnil
        rw [h2, List.nil_append]
        exact hslen

theorem embChunkText_bound (maxTokensPerChunk : Nat) (text : Chars)
    (hs : ∀ s ∈ splitSentences text, s.length ≤ 4 * maxTokensPerChunk)
    (hlen : 4 * maxTokensPerChunk < text.length) :
    ∀ c ∈ EmbeddingService.chunkText maxTokensPerChunk text,
      c.length ≤ 4 * maxTokensPerChunk := by
  intro c hc
  simp only [EmbeddingService.chunkText,
    if_neg (by omega : ¬ text.length ≤ 4 * maxTokensPerChunk)] at hc
  have hfold := embChunk_fold_bound maxTokensPerChunk (splitSentences text) hs
    ([], []) (by simp) (by simp)
  by_cases hne : ((splitSentences text).foldl
      (EmbeddingService.chunkStep maxTokensPerChunk) ([], [])).2 ≠ []
  · rw [if_pos hne] at hc
    rcases List.mem_append.mp hc with hm | hm
    · exact hfold.1 c hm
    · rcases List.mem_singleton.mp hm with rfl
      exact le_trans (length_jsTrim_le _) hfold.2
  · rw [if_neg hne] at hc
    exact hfold.1 c hc

/-- Claim C6 counterexample: the text "aaaaaaaa" with maxTokensPerChunk
1 has an estimated token count of 2, over the limit, yet it contains no
sentence punctuation, so the re-split falls back to the whole text as a
single chunk whose estimated token count is still over the limit, and
embed returns the backend's single embedding of that full text instead
of an average of under-limit sub-chunks. -/
theorem claim_C6_counterexample :
    4 * 1 < (("aaaaaaaa").toList).length
    ∧ EmbeddingService.chunkText 1 (("aaaaaaaa").toList) = [("aaaaaaaa").toList]
    ∧ EmbeddingService.embed (fun c => [(c.length : ℚ)]) 1 (("aaaaaaaa").toList) =
        (fun c => [(c.length : ℚ)]) (("aaaaaaaa").toList) := by
  refine ⟨by decide, by decide, ?_⟩
  have h2 : EmbeddingService.chunkText 1 (("aaaaaaaa").toList) =
      [("aaaaaaaa").toList] := by decide
  simp only [EmbeddingService.embed]
  rw [h2]
  simp

/-- Claim C6 (amended): a text whose estimated token count (length / 4)
is within maxTokensPerChunk is embedded with a single backend call on
the full text; a text over the limit whose sentence re-split yields at
least two sub-chunks is embedded as the element-wise arithmetic mean of
the sub-chunk embeddings (a single sub-chunk is embedded directly, and
can itself be over the limit, e.g. for punctuation-free text); each
sub-chunk is within the limit provided every sentence unit of the split
is; and averageEmbeddings of same-dimension vectors is the element-wise
sum divided by the count. -/
theorem claim_C6_amended (embedSingle : Chars → List ℚ)
    (maxTokensPerChunk : Nat) (text : Chars) :
    (text.length ≤ 4 * maxTokensPerChunk →
      EmbeddingService.embed embedSingle maxTokensPerChunk text = embedSingle text)
    ∧ (2 ≤ (EmbeddingService.chunkText maxTokensPerChunk text).length →
      EmbeddingService.embed embedSingle maxTokensPerChunk text =
        EmbeddingService.averageEmbeddings
          ((EmbeddingService.chunkText maxTokensPerChunk text).map embedSingle))
    ∧ (4 * maxTokensPerChunk < text.length →
      (∀ s ∈ splitSentences text, s.length ≤ 4 * maxTokensPerChunk) →
      ∀ c ∈ EmbeddingService.chunkText maxTokensPerChunk text,
        c.length ≤ 4 * maxTokensPerChunk)
    ∧ (∀ (es : List (List ℚ)) (d : Nat), es ≠ [] → (∀ e ∈ es, e.length = d) →
      EmbeddingService.averageEmbeddings es =
        (List.range d).map fun i =>
          ((es.map fun e => e.getD i 0).sum) / (es.length : ℚ)) := by
  refine ⟨?_, ?_, ?_, ?_⟩
  · intro h
    simp [EmbeddingService.embed, EmbeddingService.chunkText, h]
  · intro h2
    have hne : ¬ (EmbeddingService.chunkText maxTokensPerChunk text).length = 1 := by
      omega
    simp only [EmbeddingService.embed, if_neg hne]
  · exact fun hlen hs => embChunkText_bound maxTokensPerChunk text hs hlen
  · intro es d hne hd
    cases es with
    | nil => exact absurd rfl hne
    | cons e0 rest =>
      have h0 : e0.length = d := hd e0 (List.mem_cons_self e0 rest)
      simp only [EmbeddingService.averageEmbeddings, h0]
      apply List.map_congr_left
      intro i _
      rw [foldl_add_map_sum, zero_add]

theorem claim_C6_amended_witness :
    (2 ≤ (EmbeddingService.chunkText 1 (("ab. cd.").toList)).length)
    ∧ EmbeddingService.embed (fun c => [(c.length : ℚ)]) 1 (("ab. cd.").toList) =
        EmbeddingService.averageEmbeddings
          ((EmbeddingService.chunkText 1 (("ab. cd.").toList)).map
            (fun c => [(c.length : ℚ)])) :=
  ⟨by decide,
    (claim_C6_amended (fun c => [(c.length : ℚ)]) 1 (("ab. cd.").toList)).2.1
      (by decide)⟩

theorem claim_C9_witness :
    MockVectorStore.deletePackageVersion
        [⟨("1"), ("c"), [], ⟨("react"), ("18.3.0"), none, none, none⟩⟩]
        ("next") ("14.2.2") =
      [⟨("1"), ("c"), [], ⟨("react"), ("18.3.0"), none, none, none⟩⟩] :=
  (claim_C9 [⟨("1"), ("c"), [], ⟨("react"), ("18.3.0"), none, none, none⟩⟩]
    ("next") ("14.2.2")).2.2.2 (by decide)

end MCPDoc
